import Mathlib

/-!
# Verification of the zebra-network peer address book and inventory encoding

Shallow embedding of `src/zebra-network/src/address_book.rs` and
`src/zebra-network/src/protocol/inv.rs`.

Modelling choices:
* `SocketAddr` is an opaque key type with decidable equality: modelled as `Nat`.
* `DateTime<Utc>` is a point on a linearly ordered timeline: modelled as `Int`.
* `PeerServices` is an opaque bitmask: modelled as `Nat`.
* `HashMap<SocketAddr, (DateTime, PeerServices)>` is modelled as an association
  list with unique keys maintained by its operations (`aLookup`, `aInsert`,
  `aErase` mirror `get`, `insert`, `remove`).
* `BTreeMap<DateTime, (SocketAddr, PeerServices)>` is modelled as an association
  list kept sorted in strictly ascending key order by `btInsert` (which, like
  `BTreeMap::insert`, replaces the value when the key is already present);
  `btRemove` mirrors `BTreeMap::remove` and returns the removed value.
* A Rust `panic!`/`.expect(..)` failure is modelled by returning `none`:
  `update` has type `AddressBook → MetaAddr → Option AddressBook`, where
  `none` means the `expect("cannot have by_addr entry without by_time entry")`
  in `AddressBook::update` fired.
-/

namespace Zebra

abbrev SocketAddr := Nat
abbrev PeerServices := Nat
abbrev Timestamp := Int

/-- `MetaAddr { addr, services, last_seen }` from `zebra_network::types`. -/
structure MetaAddr where
  addr : SocketAddr
  services : PeerServices
  last_seen : Timestamp
deriving DecidableEq, Repr

/-- Unordered index: association list modelling
`HashMap<SocketAddr, (DateTime<Utc>, PeerServices)>`. -/
abbrev ByAddr := List (SocketAddr × (Timestamp × PeerServices))

/-- Ordered index: association list (kept sorted ascending by key) modelling
`BTreeMap<DateTime<Utc>, (SocketAddr, PeerServices)>`. -/
abbrev ByTime := List (Timestamp × (SocketAddr × PeerServices))

/-- `HashMap` lookup. -/
def aLookup (k : SocketAddr) : ByAddr → Option (Timestamp × PeerServices)
  | [] => none
  | (k', v) :: rest => if k' = k then some v else aLookup k rest

/-- `HashMap` insert: replaces the value if the key is present, else appends. -/
def aInsert (k : SocketAddr) (v : Timestamp × PeerServices) : ByAddr → ByAddr
  | [] => [(k, v)]
  | (k', v') :: rest => if k' = k then (k, v) :: rest else (k', v') :: aInsert k v rest

/-- `HashMap` remove (the result value is discarded by all call sites in the
source, so only the residual map is returned). -/
def aErase (k : SocketAddr) : ByAddr → ByAddr
  | [] => []
  | (k', v') :: rest => if k' = k then rest else (k', v') :: aErase k rest

/-- `BTreeMap` lookup. -/
def btLookup (t : Timestamp) : ByTime → Option (SocketAddr × PeerServices)
  | [] => none
  | (t', v) :: rest => if t' = t then some v else btLookup t rest

/-- `BTreeMap::insert`: keeps the list sorted by key ascending, replacing the
stored value when the key is already present. -/
def btInsert (t : Timestamp) (v : SocketAddr × PeerServices) : ByTime → ByTime
  | [] => [(t, v)]
  | (t', v') :: rest =>
    if t < t' then (t, v) :: (t', v') :: rest
    else if t = t' then (t, v) :: rest
    else (t', v') :: btInsert t v rest

/-- `BTreeMap::remove`: removes the entry at the key, returning its value and
the residual map, or `none` when the key is absent. -/
def btRemove (t : Timestamp) : ByTime → Option ((SocketAddr × PeerServices) × ByTime)
  | [] => none
  | (t', v) :: rest =>
    if t' = t then some (v, rest)
    else
      match btRemove t rest with
      | none => none
      | some (w, rest') => some (w, (t', v) :: rest')

/-- The `AddressBook` struct: `by_addr: HashMap<..>`, `by_time: BTreeMap<..>`. -/
structure AddressBook where
  by_addr : ByAddr
  by_time : ByTime
deriving DecidableEq, Repr

/-- `AddressBook::default()`. -/
def AddressBook.empty : AddressBook := ⟨[], []⟩

/-- `AddressBook::update(&mut self, event: MetaAddr)`.

Occupied branch: if the stored timestamp is strictly newer, discard the event;
otherwise remove the stale `by_time` entry keyed at the previous timestamp —
`.expect("cannot have by_addr entry without by_time entry")`, modelled as
returning `none` on failure — then write the new record into both indices.
Vacant branch: insert into both indices. -/
def update (book : AddressBook) (event : MetaAddr) : Option AddressBook :=
  match aLookup event.addr book.by_addr with
  | some (prev_last_seen, _) =>
    if prev_last_seen > event.last_seen then some book
    else
      match btRemove prev_last_seen book.by_time with
      | none => none
      | some (_, by_time') =>
        some ⟨aInsert event.addr (event.last_seen, event.services) book.by_addr,
              btInsert event.last_seen (event.addr, event.services) by_time'⟩
  | none =>
    some ⟨aInsert event.addr (event.last_seen, event.services) book.by_addr,
          btInsert event.last_seen (event.addr, event.services) book.by_time⟩

/-- `from_by_time_kv`: converts a `by_time` entry back into a `MetaAddr`. -/
def from_by_time_kv (e : Timestamp × (SocketAddr × PeerServices)) : MetaAddr :=
  ⟨e.2.1, e.2.2, e.1⟩

/-- `AddressBook::peers()`: all peers, most recently seen first
(`by_time.iter().rev().map(from_by_time_kv)`). -/
def peers (book : AddressBook) : List MetaAddr :=
  book.by_time.reverse.map from_by_time_kv

/-- `AddressBook::disconnected_peers()`: entries of `by_time` in the range
`(Unbounded, Excluded(cutoff))` with `cutoff = now - LIVE_PEER_DURATION`,
in reverse (descending) order. On the sorted list the range restriction is
the filter `key < cutoff`. The current time and the configured duration are
explicit parameters of the model. -/
def disconnected_peers (book : AddressBook) (now live_peer_duration : Timestamp) :
    List MetaAddr :=
  let cutoff := now - live_peer_duration
  ((book.by_time.filter fun e => e.1 < cutoff).reverse).map from_by_time_kv

/-- One step of the `Drain` iterator (`Drain::next`): take the most recent
`by_time` key (`keys().rev().next()?`), remove that entry
(`.expect("key from keys() must be present in btreemap")` — provably cannot
fail, see `drainStep_of_getLast`), remove the address from `by_addr`
discarding the result, and yield the record. `none` means the iterator is
exhausted. -/
def drainStep (book : AddressBook) : Option (MetaAddr × AddressBook) :=
  match book.by_time.getLast? with
  | none => none
  | some (most_recent, _) =>
    match btRemove most_recent book.by_time with
    | none => none
    | some ((addr, services), by_time') =>
      some (⟨addr, services, most_recent⟩, ⟨aErase addr book.by_addr, by_time'⟩)

/-- Taking `k` items from `AddressBook::drain_recent()`: the yielded records
and the resulting book. Stops early when the iterator is exhausted. -/
def drainN : Nat → AddressBook → List MetaAddr × AddressBook
  | 0, book => ([], book)
  | k + 1, book =>
    match drainStep book with
    | none => ([], book)
    | some (m, book') =>
      let r := drainN k book'
      (m :: r.1, r.2)

/-- Iterating `drain_recent()` to exhaustion (each step removes one `by_time`
entry, so `by_time.length` steps suffice). -/
def drainAll (book : AddressBook) : List MetaAddr × AddressBook :=
  drainN book.by_time.length book

/-- `Extend<MetaAddr> for AddressBook`: applies `update` to each event in
order, starting from `book`; `none` as soon as one `update` call panics. -/
def extendBook (book : AddressBook) (events : List MetaAddr) : Option AddressBook :=
  events.foldl (fun ob e => ob.bind fun b => update b e) (some book)

/-- The states produced by a sequence of `update` calls on an empty book. -/
def applyEvents (events : List MetaAddr) : Option AddressBook :=
  extendBook AddressBook.empty events

/-- The §3 dual-index invariant as the spec states it: for every address `a`
present in `by_addr` with value `(t, s)` there is exactly one entry in
`by_time` at key `t` with value `(a, s)`, and vice versa. -/
def DualIndexInvariant (book : AddressBook) : Prop :=
  (∀ a t s, aLookup a book.by_addr = some (t, s) →
    (book.by_time.filter fun e => e = (t, (a, s))).length = 1) ∧
  (∀ t a s, (t, (a, s)) ∈ book.by_time → aLookup a book.by_addr = some (t, s))

/-- Keys of `by_time` are strictly ascending (what `BTreeMap` guarantees). -/
def SortedKeys (bt : ByTime) : Prop :=
  bt.Pairwise fun x y => x.1 < y.1

instance (bt : ByTime) : Decidable (SortedKeys bt) := by
  unfold SortedKeys; infer_instance

/-- Transposes a `by_time` entry into the `by_addr` entry that mirrors it. -/
def transpose (e : Timestamp × (SocketAddr × PeerServices)) :
    SocketAddr × (Timestamp × PeerServices) :=
  (e.2.1, (e.1, e.2.2))

/-- A consistent registry state: `by_time` keys strictly ascending (what
`BTreeMap` guarantees), no address stored twice in `by_time`, and `by_addr`
holding exactly the transposed entries of `by_time` (the §3 invariant). -/
def ConsistentBook (book : AddressBook) : Prop :=
  SortedKeys book.by_time ∧
  (book.by_time.map fun e => e.2.1).Nodup ∧
  book.by_addr.Perm (book.by_time.map transpose)

instance (book : AddressBook) : Decidable (ConsistentBook book) := by
  unfold ConsistentBook; infer_instance

/-! ## Inventory hashes (`protocol/inv.rs`) -/

abbrev Byte := Fin 256

/-- A 32-byte hash value (`[u8; 32]`). -/
def Hash32 := { l : List Byte // l.length = 32 }

instance : DecidableEq Hash32 := fun a b =>
  decidable_of_iff (a.val = b.val) Subtype.ext_iff.symm

/-- `TxHash(pub [u8; 32])`. -/
structure TxHash where
  digest : Hash32
deriving DecidableEq

/-- `BlockHash(pub [u8; 32])`. -/
structure BlockHash where
  digest : Hash32
deriving DecidableEq

/-- `InventoryHash`: a typed hash advertising or requesting data. -/
inductive InventoryHash where
  | Error
  | Tx (hash : TxHash)
  | Block (hash : BlockHash)
  | FilteredBlock (hash : BlockHash)
deriving DecidableEq

/-- Modelled from the spec: `SerializationError` of `zebra_chain::serialization`
(the crate is not under `src/`); the spec names a distinct, recoverable
`ParseError` kind for unrecognized type codes, and reads of missing input
fail with an I/O-style error. -/
inductive SerializationError where
  | ioError
  | parseError (msg : String)
deriving DecidableEq

/-- Little-endian encoding of a `u32` (`write_u32::<LittleEndian>`). -/
def encodeU32LE (n : Nat) : List Byte :=
  [⟨n % 256, by omega⟩, ⟨n / 256 % 256, by omega⟩,
   ⟨n / 65536 % 256, by omega⟩, ⟨n / 16777216 % 256, by omega⟩]

/-- Little-endian decoding of 4 bytes into a `u32` value. -/
def decodeU32LE (b0 b1 b2 b3 : Byte) : Nat :=
  b0.val + 256 * b1.val + 65536 * b2.val + 16777216 * b3.val

/-- `read_u32::<LittleEndian>`: consume 4 bytes, or fail on short input. -/
def read_u32LE : List Byte → Except SerializationError (Nat × List Byte)
  | b0 :: b1 :: b2 :: b3 :: rest => .ok (decodeU32LE b0 b1 b2 b3, rest)
  | _ => .error .ioError

/-- `read_32_bytes`: consume 32 bytes, or fail on short input. -/
def read_32_bytes (data : List Byte) :
    Except SerializationError (Hash32 × List Byte) :=
  if h : 32 ≤ data.length then
    .ok (⟨data.take 32, by rw [List.length_take]; omega⟩, data.drop 32)
  else
    .error .ioError

/-- `InventoryHash::zcash_serialize`: a 4-byte little-endian type code
(0 = Error with an all-zero hash, 1 = Tx, 2 = Block, 3 = FilteredBlock)
followed by the 32-byte hash. -/
def zcash_serialize (v : InventoryHash) : List Byte :=
  let p : Nat × List Byte :=
    match v with
    | .Error => (0, List.replicate 32 (0 : Byte))
    | .Tx hash => (1, hash.digest.val)
    | .Block hash => (2, hash.digest.val)
    | .FilteredBlock hash => (3, hash.digest.val)
  encodeU32LE p.1 ++ p.2

/-- `InventoryHash::zcash_deserialize`: read the 4-byte code and the 32-byte
hash, then dispatch on the code; any code outside 0–3 is a parse error. -/
def zcash_deserialize (data : List Byte) :
    Except SerializationError (InventoryHash × List Byte) :=
  match read_u32LE data with
  | .error e => .error e
  | .ok (code, rest) =>
    match read_32_bytes rest with
    | .error e => .error e
    | .ok (bytes, rest') =>
      if code = 0 then .ok (.Error, rest')
      else if code = 1 then .ok (.Tx ⟨bytes⟩, rest')
      else if code = 2 then .ok (.Block ⟨bytes⟩, rest')
      else if code = 3 then .ok (.FilteredBlock ⟨bytes⟩, rest')
      else .error (.parseError "invalid inventory code")

end Zebra

namespace Zebra

/-! ## Basic lemmas about the index operations -/

theorem aLookup_aInsert_self (k : SocketAddr) (v : Timestamp × PeerServices) :
    ∀ l : ByAddr, aLookup k (aInsert k v l) = some v := by
  intro l
  induction l with
  | nil => simp [aInsert, aLookup]
  | cons hd tl ih =>
    by_cases hk : hd.1 = k
    · simp [aInsert, hk, aLookup]
    · simpa [aInsert, hk, aLookup] using ih

theorem btLookup_btInsert_self (t : Timestamp) (v : SocketAddr × PeerServices) :
    ∀ l : ByTime, btLookup t (btInsert t v l) = some v := by
  intro l
  induction l with
  | nil => simp [btInsert, btLookup]
  | cons hd tl ih =>
    rcases lt_trichotomy t hd.1 with hlt | heq | hgt
    · simp [btInsert, hlt, btLookup]
    · simp [btInsert, heq.symm ▸ lt_irrefl t, heq, btLookup]
    · have h1 : ¬ t < hd.1 := not_lt.mpr hgt.le
      have h2 : t ≠ hd.1 := ne_of_gt hgt
      simpa [btInsert, h1, h2, btLookup, h2.symm] using ih

/-! ## Claim theorems -/

/-- C1: the dual-index invariant does NOT survive a timestamp collision.
After `update(addr 0, services 1, t 10)` and `update(addr 1, services 2, t 10)`
both calls return normally, `by_addr` holds both addresses, but `by_time`
holds only address 1's record at key 10: address 0's record was silently
overwritten by `BTreeMap::insert`, so the "exactly one mirrored entry"
invariant fails for address 0. -/
theorem timestamp_collision_breaks_dual_index_invariant :
    applyEvents [⟨0, 1, 10⟩, ⟨1, 2, 10⟩] =
      some ⟨[(0, (10, 1)), (1, (10, 2))], [(10, (1, 2))]⟩ ∧
    ¬ DualIndexInvariant ⟨[(0, (10, 1)), (1, (10, 2))], [(10, (1, 2))]⟩ := by
  constructor
  · rfl
  · rintro ⟨h1, -⟩
    have := h1 0 10 1 (by decide)
    simp at this

/-- C2: `update` is not total. Starting from the empty book, the four calls
`update(0, _, 10)`, `update(1, _, 10)`, `update(1, _, 20)`, `update(0, _, 30)`
reach the `expect("cannot have by_addr entry without by_time entry")` panic
on the fourth call (modelled as `none`): the first three calls succeed, but
the third moved the `by_time` entry at key 10 away, so the fourth call's
removal of the stale entry finds nothing. -/
theorem update_can_reach_fatal_violation_branch :
    applyEvents [⟨0, 1, 10⟩, ⟨1, 1, 10⟩, ⟨1, 1, 20⟩] =
      some ⟨[(0, (10, 1)), (1, (20, 1))], [(20, (1, 1))]⟩ ∧
    applyEvents [⟨0, 1, 10⟩, ⟨1, 1, 10⟩, ⟨1, 1, 20⟩, ⟨0, 1, 30⟩] = none := by
  exact ⟨rfl, rfl⟩

/-- C4: monotonicity / order independence. For any address and any two updates
for that address with timestamps `t1 < t2`, applying the two updates to the
empty book in either order produces the same final state, holding exactly the
record with timestamp `t2` and its services in both indices. -/
theorem update_monotone_order_independent (a : SocketAddr) (s1 s2 : PeerServices)
    (t1 t2 : Timestamp) (h : t1 < t2) :
    applyEvents [⟨a, s1, t1⟩, ⟨a, s2, t2⟩] = some ⟨[(a, (t2, s2))], [(t2, (a, s2))]⟩ ∧
    applyEvents [⟨a, s2, t2⟩, ⟨a, s1, t1⟩] = some ⟨[(a, (t2, s2))], [(t2, (a, s2))]⟩ := by
  constructor
  · simp [applyEvents, extendBook, AddressBook.empty, update, aLookup, aInsert,
      btRemove, btInsert, h.asymm]
  · simp [applyEvents, extendBook, AddressBook.empty, update, aLookup, aInsert,
      btRemove, btInsert, h]

/-- C4 witness: the two orders agree at a concrete input. -/
theorem update_monotone_order_independent_witness :
    applyEvents [⟨5, 1, 3⟩, ⟨5, 2, 7⟩] = some ⟨[(5, (7, 2))], [(7, (5, 2))]⟩ ∧
    applyEvents [⟨5, 2, 7⟩, ⟨5, 1, 3⟩] = some ⟨[(5, (7, 2))], [(7, (5, 2))]⟩ :=
  update_monotone_order_independent 5 1 2 3 7 (by decide)

/-- C7: stale rejection. If the address is stored with timestamp `prev` and an
update arrives with `last_seen` strictly older than `prev`, the whole registry
state is unchanged (so in particular the stored services and timestamp are). -/
theorem update_stale_rejected (book : AddressBook) (a : SocketAddr)
    (s0 s : PeerServices) (prev t : Timestamp)
    (h : aLookup a book.by_addr = some (prev, s0)) (hlt : t < prev) :
    update book ⟨a, s, t⟩ = some book := by
  simp [update, h, hlt]

/-- C7 witness: a stale update at a concrete state is a no-op. -/
theorem update_stale_rejected_witness :
    update ⟨[(0, (10, 5))], [(10, (0, 5))]⟩ ⟨0, 7, 9⟩ =
      some ⟨[(0, (10, 5))], [(10, (0, 5))]⟩ :=
  update_stale_rejected ⟨[(0, (10, 5))], [(10, (0, 5))]⟩ 0 5 7 10 9 rfl (by decide)

/-- C8: equal-timestamp overwrite. If the address is stored with timestamp `t`
and the `by_time` removal at key `t` succeeds (as the invariant intends), an
update with the same timestamp `t` is treated as newer: it rewrites both
indices, and afterwards both lookups return the event's services. -/
theorem update_equal_timestamp_overwrites (book : AddressBook) (a a' : SocketAddr)
    (sOld sNew s' : PeerServices) (t : Timestamp) (bt' : ByTime)
    (h1 : aLookup a book.by_addr = some (t, sOld))
    (h2 : btRemove t book.by_time = some ((a', s'), bt')) :
    update book ⟨a, sNew, t⟩ =
      some ⟨aInsert a (t, sNew) book.by_addr, btInsert t (a, sNew) bt'⟩ ∧
    aLookup a (aInsert a (t, sNew) book.by_addr) = some (t, sNew) ∧
    btLookup t (btInsert t (a, sNew) bt') = some (a, sNew) := by
  refine ⟨?_, aLookup_aInsert_self _ _ _, btLookup_btInsert_self _ _ _⟩
  simp [update, h1, h2, lt_irrefl]

theorem aErase_of_aLookup_none (k : SocketAddr) :
    ∀ l : ByAddr, aLookup k l = none → aErase k l = l := by
  intro l
  induction l with
  | nil => intro; rfl
  | cons hd tl ih =>
    intro h
    by_cases hk : hd.1 = k
    · simp [aLookup, hk] at h
    · simp only [aLookup, hk, if_false] at h
      simp [aErase, hk, ih h]

/-- C3 counterexample: a concrete drain step where the address taken from the
ordered index (address 0, at key 10) is not present in `by_addr` at all, yet
`Drain::next` yields the record normally and continues — it does not abort. -/
theorem drain_step_missing_by_addr_does_not_abort :
    aLookup 0 (AddressBook.mk [] [(10, (0, 1))]).by_addr = none ∧
    drainStep ⟨[], [(10, (0, 1))]⟩ = some (⟨0, 1, 10⟩, ⟨[], []⟩) :=
  ⟨rfl, rfl⟩

/-- C3 amended: when the most recent `by_time` entry holds an address that is
absent from `by_addr`, the drain step silently continues: it yields the record
and leaves `by_addr` untouched (`HashMap::remove`'s result is discarded by
`Drain::next`), with no abort. The only `expect` in `Drain::next` concerns the
`by_time` key itself, which always succeeds. -/
theorem drainStep_missing_by_addr_silently_continues (book : AddressBook)
    (t : Timestamp) (a : SocketAddr) (s : PeerServices) (bt' : ByTime)
    (hlast : book.by_time.getLast? = some (t, (a, s)))
    (hrem : btRemove t book.by_time = some ((a, s), bt'))
    (hmiss : aLookup a book.by_addr = none) :
    drainStep book = some (⟨a, s, t⟩, ⟨book.by_addr, bt'⟩) := by
  simp [drainStep, hlast, hrem, aErase_of_aLookup_none a book.by_addr hmiss]

/-- C3 amended witness: the silent continuation at a concrete state whose
`by_addr` is nonempty but lacks the drained address. -/
theorem drainStep_missing_by_addr_silently_continues_witness :
    drainStep ⟨[(5, (3, 2))], [(10, (0, 1))]⟩ =
      some (⟨0, 1, 10⟩, ⟨[(5, (3, 2))], []⟩) :=
  drainStep_missing_by_addr_silently_continues ⟨[(5, (3, 2))], [(10, (0, 1))]⟩
    10 0 1 [] rfl rfl (by decide)

theorem disconnected_peers_eq_filter_peers (book : AddressBook)
    (now lpd : Timestamp) :
    disconnected_peers book now lpd =
      (peers book).filter fun m => m.last_seen < now - lpd := by
  unfold disconnected_peers peers
  rw [List.filter_map, List.filter_reverse]
  rfl

/-- C5: `disconnected_peers` yields exactly the peers held in the ordered
index whose `last_seen` is strictly older than `now - LIVE_PEER_DURATION`,
in the order of `peers` (most recently seen first, strictly descending when
the index keys are sorted); the boundary is exclusive: a peer last seen
exactly at the cutoff is excluded. -/
theorem disconnected_peers_spec (book : AddressBook) (now lpd : Timestamp)
    (hsorted : SortedKeys book.by_time) :
    disconnected_peers book now lpd =
      ((peers book).filter fun m => m.last_seen < now - lpd) ∧
    (∀ m, m ∈ disconnected_peers book now lpd ↔
      m ∈ peers book ∧ m.last_seen < now - lpd) ∧
    (∀ m, m.last_seen = now - lpd → m ∉ disconnected_peers book now lpd) ∧
    (disconnected_peers book now lpd).Pairwise
      fun x y => y.last_seen < x.last_seen := by
  have heq := disconnected_peers_eq_filter_peers book now lpd
  refine ⟨heq, ?_, ?_, ?_⟩
  · intro m
    rw [heq, List.mem_filter]
    simp
  · intro m hm hmem
    rw [heq, List.mem_filter] at hmem
    rcases hmem with ⟨-, hlt⟩
    rw [hm] at hlt
    simp at hlt
  · have hrev : book.by_time.reverse.Pairwise
        fun x y : Timestamp × SocketAddr × PeerServices => y.1 < x.1 := by
      rw [List.pairwise_reverse]
      exact hsorted
    have hp : (peers book).Pairwise fun x y => y.last_seen < x.last_seen :=
      List.Pairwise.map from_by_time_kv (fun a b h => h) hrev
    rw [heq]
    exact List.Pairwise.sublist (List.filter_sublist _) hp

/-- C5 witness: a concrete book with two peers, one strictly below the cutoff
(included) and one exactly at the cutoff (excluded). -/
theorem disconnected_peers_spec_witness :
    (disconnected_peers ⟨[(0, (5, 1)), (1, (10, 2))], [(5, (0, 1)), (10, (1, 2))]⟩ 20 10 =
      ((peers ⟨[(0, (5, 1)), (1, (10, 2))], [(5, (0, 1)), (10, (1, 2))]⟩).filter
        fun m => m.last_seen < 20 - 10)) ∧
    (∀ m, m ∈ disconnected_peers ⟨[(0, (5, 1)), (1, (10, 2))], [(5, (0, 1)), (10, (1, 2))]⟩ 20 10 ↔
      m ∈ peers ⟨[(0, (5, 1)), (1, (10, 2))], [(5, (0, 1)), (10, (1, 2))]⟩ ∧
        m.last_seen < 20 - 10) ∧
    (∀ m, m.last_seen = 20 - 10 →
      m ∉ disconnected_peers ⟨[(0, (5, 1)), (1, (10, 2))], [(5, (0, 1)), (10, (1, 2))]⟩ 20 10) ∧
    (disconnected_peers ⟨[(0, (5, 1)), (1, (10, 2))], [(5, (0, 1)), (10, (1, 2))]⟩ 20 10).Pairwise
      (fun x y => y.last_seen < x.last_seen) :=
  disconnected_peers_spec ⟨[(0, (5, 1)), (1, (10, 2))], [(5, (0, 1)), (10, (1, 2))]⟩
    20 10 (by decide)

/-! ## Drain machinery (C6) -/

theorem btRemove_concat (t : Timestamp) (v : SocketAddr × PeerServices) :
    ∀ l : ByTime, (∀ e ∈ l, e.1 ≠ t) → btRemove t (l ++ [(t, v)]) = some (v, l) := by
  intro l
  induction l with
  | nil => intro; simp [btRemove]
  | cons hd tl ih =>
    intro h
    have hhd : hd.1 ≠ t := h hd (by simp)
    have htl : ∀ e ∈ tl, e.1 ≠ t := fun e he => h e (by simp [he])
    simp [btRemove, hhd, ih htl]

theorem drainStep_concat (ba : ByAddr) (l : ByTime) (t : Timestamp)
    (a : SocketAddr) (s : PeerServices) (h : ∀ e ∈ l, e.1 ≠ t) :
    drainStep ⟨ba, l ++ [(t, (a, s))]⟩ =
      some (⟨a, s, t⟩, ⟨aErase a ba, l⟩) := by
  simp [drainStep, List.getLast?_concat, btRemove_concat t (a, s) l h]

theorem aErase_perm :
    ∀ (ba m : ByAddr) (a : SocketAddr) (v : Timestamp × PeerServices),
      ba.Perm ((a, v) :: m) → (∀ e ∈ m, e.1 ≠ a) → (aErase a ba).Perm m := by
  intro ba
  induction ba with
  | nil =>
    intro m a v hperm hm
    have := hperm.length_eq
    simp at this
  | cons hd tl ih =>
    intro m a v hperm hm
    by_cases hk : hd.1 = a
    · have hhd : hd = (a, v) := by
        have hmem : hd ∈ (a, v) :: m := hperm.subset (by simp)
        rcases List.mem_cons.mp hmem with h | h
        · exact h
        · exact absurd hk (hm hd h)
      subst hhd
      have htl : tl.Perm m := hperm.cons_inv
      simpa [aErase] using htl
    · have hmem : hd ∈ m := by
        have hmem' : hd ∈ (a, v) :: m := hperm.subset (by simp)
        rcases List.mem_cons.mp hmem' with h | h
        · exact absurd (by rw [h]) hk
        · exact h
      have hm' := List.perm_cons_erase hmem
      have h1 := hperm.trans ((hm'.cons (a, v)).trans (List.Perm.swap hd (a, v) _))
      have htl := h1.cons_inv
      have hrec := ih _ a v htl
        (fun e he => hm e (hm'.symm.subset (List.mem_cons_of_mem hd he)))
      have hfin := (hrec.cons hd).trans hm'.symm
      simpa [aErase, hk] using hfin

theorem peers_concat (ba : ByAddr) (l : ByTime) (t : Timestamp)
    (a : SocketAddr) (s : PeerServices) :
    peers ⟨ba, l ++ [(t, (a, s))]⟩ = ⟨a, s, t⟩ :: (l.reverse.map from_by_time_kv) := by
  simp [peers, from_by_time_kv]

theorem consistent_concat_step (ba : ByAddr) (l : ByTime) (t : Timestamp)
    (a : SocketAddr) (s : PeerServices)
    (h : ConsistentBook ⟨ba, l ++ [(t, (a, s))]⟩) :
    ConsistentBook ⟨aErase a ba, l⟩ ∧ (∀ e ∈ l, e.1 ≠ t) := by
  obtain ⟨hsorted, hnodup, hperm⟩ := h
  replace hsorted : (l ++ [(t, (a, s))]).Pairwise
      (fun x y : Timestamp × SocketAddr × PeerServices => x.1 < y.1) := hsorted
  rw [List.pairwise_append] at hsorted
  obtain ⟨hsl, -, hlt⟩ := hsorted
  have hflt : ∀ e ∈ l, e.1 < t := by
    intro e he
    exact hlt e he (t, (a, s)) (by simp)
  rw [List.map_append] at hnodup hperm
  simp only [List.map_cons, List.map_nil] at hnodup hperm
  have hnl : (l.map fun e => e.2.1).Nodup := (List.nodup_append.mp hnodup).1
  have hanotin : a ∉ l.map fun e => e.2.1 := by
    intro hin
    rcases List.nodup_append.mp hnodup with ⟨-, -, hdisj⟩
    exact hdisj hin (by simp)
  refine ⟨⟨hsl, hnl, ?_⟩, fun e he => ne_of_lt (hflt e he)⟩
  have hperm' : ba.Perm ((a, (t, s)) :: l.map transpose) := by
    refine hperm.trans ?_
    simp [transpose]
  refine aErase_perm ba (l.map transpose) a (t, s) hperm' ?_
  intro e he
  rcases List.mem_map.mp he with ⟨e', he', rfl⟩
  intro hcontra
  exact hanotin (List.mem_map.mpr ⟨e', he', hcontra⟩)

theorem drainN_spec : ∀ (k : Nat) (book : AddressBook), ConsistentBook book →
    (drainN k book).1 = (peers book).take k ∧
    peers (drainN k book).2 = (peers book).drop k ∧
    ConsistentBook (drainN k book).2 := by
  intro k
  induction k with
  | zero => intro book h; exact ⟨rfl, rfl, h⟩
  | succ k ih =>
    intro book h
    obtain ⟨ba, bt⟩ := book
    rcases List.eq_nil_or_concat' bt with rfl | ⟨l, e, rfl⟩
    · have hstep : drainStep ⟨ba, ([] : ByTime)⟩ = none := by
        simp [drainStep]
      have hpeers : peers ⟨ba, ([] : ByTime)⟩ = [] := by simp [peers]
      simp [drainN, hstep, hpeers, h]
    · obtain ⟨t, a, s⟩ := e
      obtain ⟨hcons, hne⟩ := consistent_concat_step ba l t a s h
      have hstep := drainStep_concat ba l t a s hne
      have hpeers := peers_concat ba l t a s
      have hpeers' : peers ⟨aErase a ba, l⟩ = l.reverse.map from_by_time_kv := rfl
      obtain ⟨ih1, ih2, ih3⟩ := ih ⟨aErase a ba, l⟩ hcons
      rw [hpeers' ] at ih1 ih2
      refine ⟨?_, ?_, ?_⟩
      · simp [drainN, hstep, hpeers, ih1]
      · simp [drainN, hstep, hpeers, ih2]
      · simp only [drainN, hstep]
        exact ih3

theorem book_eq_empty (b : AddressBook) (h1 : b.by_addr = []) (h2 : b.by_time = []) :
    b = AddressBook.empty := by
  cases b
  simp_all [AddressBook.empty]

/-- C6 counterexample: in the state reached by `update(0, 1, 10)` then
`update(1, 2, 10)` the registry holds two peers (addresses 0 and 1, both in
`by_addr`), yet iterating `drain_recent()` to exhaustion yields only one
record and leaves the registry still holding address 0 in `by_addr`: with a
timestamp collision, draining neither yields every previously-held peer nor
leaves the registry empty. -/
theorem drain_after_collision_loses_peer :
    applyEvents [⟨0, 1, 10⟩, ⟨1, 2, 10⟩] =
      some ⟨[(0, (10, 1)), (1, (10, 2))], [(10, (1, 2))]⟩ ∧
    drainAll ⟨[(0, (10, 1)), (1, (10, 2))], [(10, (1, 2))]⟩ =
      ([⟨1, 2, 10⟩], ⟨[(0, (10, 1))], []⟩) ∧
    ([(0, (10, 1)), (1, (10, 2))] : ByAddr).length = 2 ∧
    aLookup 0 [(0, (10, 1))] = some (10, 1) :=
  ⟨rfl, rfl, rfl, rfl⟩

/-- C6 amended: for any registry state satisfying the dual-index invariant
(`by_time` keys strictly sorted, addresses in `by_time` distinct, `by_addr`
the transposed entries of `by_time`), iterating `drain_recent()` to
exhaustion yields every held peer exactly once in strictly descending
`last_seen` order and leaves the registry empty; taking only `k` items yields
the first `k` records of `peers()` (the `k` largest `last_seen`) and leaves a
registry — still satisfying the invariant — whose `peers()` sequence is
exactly the original one with those first `k` records removed. -/
theorem drain_recent_spec (book : AddressBook) (k : Nat) (h : ConsistentBook book) :
    (drainAll book).1 = peers book ∧
    (drainAll book).2 = AddressBook.empty ∧
    (drainAll book).1.Pairwise (fun x y => y.last_seen < x.last_seen) ∧
    (drainAll book).1.Nodup ∧
    (drainN k book).1 = (peers book).take k ∧
    peers (drainN k book).2 = (peers book).drop k ∧
    ConsistentBook (drainN k book).2 := by
  have hlen : (peers book).length = book.by_time.length := by simp [peers]
  obtain ⟨h1, h2, h3⟩ := drainN_spec book.by_time.length book h
  obtain ⟨hk1, hk2, hk3⟩ := drainN_spec k book h
  have hyields : (drainAll book).1 = peers book := by
    rw [drainAll, h1, ← hlen, List.take_length]
  have hdrop : peers (drainAll book).2 = [] := by
    rw [drainAll, h2, ← hlen, List.drop_length]
  have hbt : (drainAll book).2.by_time = [] := by
    have := hdrop
    unfold peers at this
    rcases List.map_eq_nil_iff.mp this with hrev
    exact List.reverse_eq_nil_iff.mp hrev
  have hba : (drainAll book).2.by_addr = [] := by
    obtain ⟨-, -, hp⟩ : ConsistentBook (drainAll book).2 := by
      rw [drainAll]; exact h3
    rw [hbt] at hp
    simpa using hp.eq_nil
  have hdesc : (peers book).Pairwise fun x y => y.last_seen < x.last_seen := by
    have hrev : book.by_time.reverse.Pairwise
        fun x y : Timestamp × SocketAddr × PeerServices => y.1 < x.1 := by
      rw [List.pairwise_reverse]
      exact h.1
    exact List.Pairwise.map from_by_time_kv (fun a b hab => hab) hrev
  refine ⟨hyields, book_eq_empty _ hba hbt, ?_, ?_, hk1, hk2, hk3⟩
  · rw [hyields]; exact hdesc
  · rw [hyields]
    exact hdesc.imp fun hab heq => by rw [heq] at hab; exact lt_irrefl _ hab

/-- C6 witness: a concrete consistent registry with two peers, drained fully
and drained one item. -/
theorem drain_recent_spec_witness :
    (drainAll ⟨[(0, (5, 1)), (1, (10, 2))], [(5, (0, 1)), (10, (1, 2))]⟩).1 =
      peers ⟨[(0, (5, 1)), (1, (10, 2))], [(5, (0, 1)), (10, (1, 2))]⟩ ∧
    (drainAll ⟨[(0, (5, 1)), (1, (10, 2))], [(5, (0, 1)), (10, (1, 2))]⟩).2 =
      AddressBook.empty ∧
    (drainAll ⟨[(0, (5, 1)), (1, (10, 2))], [(5, (0, 1)), (10, (1, 2))]⟩).1.Pairwise
      (fun x y => y.last_seen < x.last_seen) ∧
    (drainAll ⟨[(0, (5, 1)), (1, (10, 2))], [(5, (0, 1)), (10, (1, 2))]⟩).1.Nodup ∧
    (drainN 1 ⟨[(0, (5, 1)), (1, (10, 2))], [(5, (0, 1)), (10, (1, 2))]⟩).1 =
      (peers ⟨[(0, (5, 1)), (1, (10, 2))], [(5, (0, 1)), (10, (1, 2))]⟩).take 1 ∧
    peers (drainN 1 ⟨[(0, (5, 1)), (1, (10, 2))], [(5, (0, 1)), (10, (1, 2))]⟩).2 =
      (peers ⟨[(0, (5, 1)), (1, (10, 2))], [(5, (0, 1)), (10, (1, 2))]⟩).drop 1 ∧
    ConsistentBook (drainN 1 ⟨[(0, (5, 1)), (1, (10, 2))], [(5, (0, 1)), (10, (1, 2))]⟩).2 :=
  drain_recent_spec ⟨[(0, (5, 1)), (1, (10, 2))], [(5, (0, 1)), (10, (1, 2))]⟩ 1
    (by decide)

/-! ## Sortedness of `by_time` through `update` (C10) -/

theorem btInsert_mem (t : Timestamp) (v : SocketAddr × PeerServices) :
    ∀ l : ByTime, ∀ e ∈ btInsert t v l, e = (t, v) ∨ e ∈ l := by
  intro l
  induction l with
  | nil => intro e he; simpa [btInsert] using he
  | cons hd tl ih =>
    obtain ⟨thd, vhd⟩ := hd
    intro e he
    rcases lt_trichotomy t thd with hlt | heq | hgt
    · rw [btInsert, if_pos hlt] at he
      rcases List.mem_cons.mp he with h | h
      · exact Or.inl h
      · exact Or.inr h
    · subst heq
      rw [btInsert, if_neg (lt_irrefl t), if_pos rfl] at he
      rcases List.mem_cons.mp he with h | h
      · exact Or.inl h
      · exact Or.inr (by simp [h])
    · rw [btInsert, if_neg (not_lt.mpr hgt.le), if_neg (ne_of_gt hgt)] at he
      rcases List.mem_cons.mp he with h | h
      · exact Or.inr (by simp [h])
      · rcases ih e h with h' | h'
        · exact Or.inl h'
        · exact Or.inr (by simp [h'])

theorem btInsert_sorted (t : Timestamp) (v : SocketAddr × PeerServices) :
    ∀ l : ByTime, SortedKeys l → SortedKeys (btInsert t v l) := by
  intro l
  induction l with
  | nil => intro; simp [btInsert, SortedKeys]
  | cons hd tl ih =>
    obtain ⟨thd, vhd⟩ := hd
    intro hs
    have hs' : ∀ e ∈ tl, thd < e.1 := by
      intro e he
      exact (List.pairwise_cons.mp hs).1 e he
    have hstl : SortedKeys tl := (List.pairwise_cons.mp hs).2
    rcases lt_trichotomy t thd with hlt | heq | hgt
    · rw [btInsert, if_pos hlt]
      refine List.pairwise_cons.mpr ⟨?_, hs⟩
      intro e he
      rcases List.mem_cons.mp he with h | h
      · rw [h]; exact hlt
      · exact hlt.trans (hs' e h)
    · subst heq
      rw [btInsert, if_neg (lt_irrefl t), if_pos rfl]
      refine List.pairwise_cons.mpr ⟨?_, hstl⟩
      intro e he
      exact hs' e he
    · rw [btInsert, if_neg (not_lt.mpr hgt.le), if_neg (ne_of_gt hgt)]
      refine List.pairwise_cons.mpr ⟨?_, ih hstl⟩
      intro e he
      rcases btInsert_mem t v tl e he with h | h
      · rw [h]; exact hgt
      · exact hs' e h

theorem btRemove_sublist_mem (t : Timestamp) :
    ∀ (l : ByTime) (w : SocketAddr × PeerServices) (l' : ByTime),
      btRemove t l = some (w, l') → (t, w) ∈ l ∧ l'.Sublist l := by
  intro l
  induction l with
  | nil => intro w l' h; simp [btRemove] at h
  | cons hd tl ih =>
    obtain ⟨thd, vhd⟩ := hd
    intro w l' h
    by_cases hk : thd = t
    · subst hk
      rw [btRemove, if_pos rfl] at h
      simp only [Option.some.injEq, Prod.mk.injEq] at h
      obtain ⟨rfl, rfl⟩ := h
      exact ⟨by simp, List.sublist_cons_self _ tl⟩
    · rw [btRemove, if_neg hk] at h
      cases hrec : btRemove t tl with
      | none => rw [hrec] at h; simp at h
      | some p =>
        obtain ⟨w', tl'⟩ := p
        rw [hrec] at h
        simp only [Option.some.injEq, Prod.mk.injEq] at h
        obtain ⟨rfl, rfl⟩ := h
        obtain ⟨hmem, hsub⟩ := ih w' tl' hrec
        exact ⟨List.mem_cons_of_mem _ hmem, hsub.cons₂ _⟩

theorem update_sorted (book : AddressBook) (e : MetaAddr) (b' : AddressBook)
    (hs : SortedKeys book.by_time) (hu : update book e = some b') :
    SortedKeys b'.by_time := by
  cases hl : aLookup e.addr book.by_addr with
  | none =>
    simp only [update, hl, Option.some.injEq] at hu
    subst hu
    exact btInsert_sorted e.last_seen (e.addr, e.services) book.by_time hs
  | some p =>
    obtain ⟨prev, s0⟩ := p
    by_cases hc : prev > e.last_seen
    · simp only [update, hl, if_pos hc, Option.some.injEq] at hu
      subst hu
      exact hs
    · cases hr : btRemove prev book.by_time with
      | none => simp [update, hl, if_neg hc, hr] at hu
      | some q =>
        obtain ⟨w, bt'⟩ := q
        simp only [update, hl, if_neg hc, hr, Option.some.injEq] at hu
        subst hu
        have hsub := (btRemove_sublist_mem prev book.by_time w bt' hr).2
        exact btInsert_sorted e.last_seen (e.addr, e.services) bt'
          (List.Pairwise.sublist hsub hs)

theorem foldl_update_none (events : List MetaAddr) :
    events.foldl (fun ob e => ob.bind fun b => update b e) none = none := by
  induction events with
  | nil => rfl
  | cons e es ih => simpa using ih

theorem extendBook_sorted :
    ∀ (events : List MetaAddr) (b0 b : AddressBook), SortedKeys b0.by_time →
      extendBook b0 events = some b → SortedKeys b.by_time := by
  intro events
  induction events with
  | nil =>
    intro b0 b hs h
    obtain rfl : b0 = b := Option.some.inj h
    exact hs
  | cons e es ih =>
    intro b0 b hs h
    unfold extendBook at h
    rw [List.foldl_cons] at h
    cases hu : update b0 e with
    | none =>
      rw [show (some b0).bind (fun b => update b e) = none by simp [hu]] at h
      rw [foldl_update_none] at h
      exact absurd h (by simp)
    | some b1 =>
      rw [show (some b0).bind (fun b => update b e) = some b1 by simp [hu]] at h
      exact ih b1 b (update_sorted b0 e b1 hs hu) h

theorem btInsert_mem_sorted (t : Timestamp) (v : SocketAddr × PeerServices) :
    ∀ l : ByTime, SortedKeys l →
      ∀ e ∈ btInsert t v l, e = (t, v) ∨ (e ∈ l ∧ e.1 ≠ t) := by
  intro l
  induction l with
  | nil => intro _ e he; exact Or.inl (by simpa [btInsert] using he)
  | cons hd tl ih =>
    obtain ⟨thd, vhd⟩ := hd
    intro hs e he
    have hs' : ∀ x ∈ tl, thd < x.1 := by
      intro x hx
      exact (List.pairwise_cons.mp hs).1 x hx
    have hstl : SortedKeys tl := (List.pairwise_cons.mp hs).2
    rcases lt_trichotomy t thd with hlt | heq | hgt
    · rw [btInsert, if_pos hlt] at he
      rcases List.mem_cons.mp he with h | h
      · exact Or.inl h
      · rcases List.mem_cons.mp h with h' | h'
        · exact Or.inr ⟨by simp [h'], by rw [h']; exact (ne_of_gt hlt)⟩
        · exact Or.inr ⟨by simp [h'], ne_of_gt (hlt.trans (hs' e h'))⟩
    · subst heq
      rw [btInsert, if_neg (lt_irrefl t), if_pos rfl] at he
      rcases List.mem_cons.mp he with h | h
      · exact Or.inl h
      · exact Or.inr ⟨by simp [h], ne_of_gt (hs' e h)⟩
    · rw [btInsert, if_neg (not_lt.mpr hgt.le), if_neg (ne_of_gt hgt)] at he
      rcases List.mem_cons.mp he with h | h
      · exact Or.inr ⟨by simp [h], by rw [h]; exact ne_of_lt hgt⟩
      · rcases ih hstl e h with h' | h'
        · exact Or.inl h'
        · exact Or.inr ⟨by simp [h'.1], h'.2⟩

theorem drainStep_mem (book : AddressBook) (m : MetaAddr) (book' : AddressBook)
    (h : drainStep book = some (m, book')) :
    (∃ e ∈ book.by_time, from_by_time_kv e = m) ∧
      book'.by_time.Sublist book.by_time := by
  cases hg : book.by_time.getLast? with
  | none => simp [drainStep, hg] at h
  | some p =>
    obtain ⟨t, v⟩ := p
    cases hr : btRemove t book.by_time with
    | none => simp [drainStep, hg, hr] at h
    | some q =>
      obtain ⟨⟨a, s⟩, bt'⟩ := q
      simp only [drainStep, hg, hr, Option.some.injEq, Prod.mk.injEq] at h
      obtain ⟨rfl, rfl⟩ := h
      obtain ⟨hmem, hsub⟩ := btRemove_sublist_mem t book.by_time (a, s) bt' hr
      exact ⟨⟨(t, (a, s)), hmem, rfl⟩, hsub⟩

theorem drainN_mem : ∀ (k : Nat) (book : AddressBook), ∀ m ∈ (drainN k book).1,
    ∃ e ∈ book.by_time, from_by_time_kv e = m := by
  intro k
  induction k with
  | zero => intro book m hm; simp [drainN] at hm
  | succ k ih =>
    intro book m hm
    cases hs : drainStep book with
    | none => simp [drainN, hs] at hm
    | some p =>
      obtain ⟨m0, b'⟩ := p
      simp only [drainN, hs] at hm
      rcases List.mem_cons.mp hm with rfl | hm'
      · exact (drainStep_mem book m b' hs).1
      · obtain ⟨e, he, hfe⟩ := ih b' m hm'
        exact ⟨e, ((drainStep_mem book m0 b' hs).2).mem he, hfe⟩

theorem aLookup_aInsert_ne (k k' : SocketAddr) (v : Timestamp × PeerServices)
    (hne : k ≠ k') : ∀ l : ByAddr, aLookup k (aInsert k' v l) = aLookup k l := by
  intro l
  induction l with
  | nil => simp [aInsert, aLookup, Ne.symm hne]
  | cons hd tl ih =>
    obtain ⟨khd, vhd⟩ := hd
    by_cases hk : khd = k'
    · subst hk
      rw [aInsert, if_pos rfl, aLookup, if_neg (Ne.symm hne), aLookup,
        if_neg (Ne.symm hne)]
    · rw [aInsert, if_neg hk]
      by_cases hk2 : khd = k
      · rw [aLookup, if_pos hk2, aLookup, if_pos hk2]
      · rw [aLookup, if_neg hk2, aLookup, if_neg hk2, ih]

/-- C10: the time-ordered index holds at most one peer per distinct
`last_seen` value. First conjunct: in every state reachable by `update` calls
from the empty book, the `by_time` keys are pairwise distinct. Second
conjunct: when `update` writes a record for a fresh address `a2` whose
`last_seen` equals the timestamp `t` already keying `a1`'s entry in `by_time`
(and `a1` occurs in `by_time` only at `t`), the insertion replaces `a1`'s
`by_time` entry: afterwards `by_time` keys `t` to `a2`, `a1` is still stored
in `by_addr` with its old record, yet no element of `peers()`,
`disconnected_peers()` or the full `drain_recent()` sequence carries
address `a1`. -/
theorem by_time_holds_one_peer_per_timestamp :
    (∀ (es : List MetaAddr) (b : AddressBook), applyEvents es = some b →
      b.by_time.Pairwise fun x y => x.1 ≠ y.1) ∧
    (∀ (book : AddressBook) (a1 a2 : SocketAddr) (s1 s2 : PeerServices)
        (t now lpd : Timestamp),
      SortedKeys book.by_time →
      btLookup t book.by_time = some (a1, s1) →
      aLookup a1 book.by_addr = some (t, s1) →
      aLookup a2 book.by_addr = none →
      a1 ≠ a2 →
      (∀ e ∈ book.by_time, e.2.1 = a1 → e.1 = t) →
      update book ⟨a2, s2, t⟩ =
        some ⟨aInsert a2 (t, s2) book.by_addr, btInsert t (a2, s2) book.by_time⟩ ∧
      btLookup t (btInsert t (a2, s2) book.by_time) = some (a2, s2) ∧
      aLookup a1 (aInsert a2 (t, s2) book.by_addr) = some (t, s1) ∧
      (∀ m ∈ peers ⟨aInsert a2 (t, s2) book.by_addr,
          btInsert t (a2, s2) book.by_time⟩, m.addr ≠ a1) ∧
      (∀ m ∈ disconnected_peers ⟨aInsert a2 (t, s2) book.by_addr,
          btInsert t (a2, s2) book.by_time⟩ now lpd, m.addr ≠ a1) ∧
      (∀ m ∈ (drainAll ⟨aInsert a2 (t, s2) book.by_addr,
          btInsert t (a2, s2) book.by_time⟩).1, m.addr ≠ a1)) := by
  constructor
  · intro es b h
    have hs : SortedKeys b.by_time :=
      extendBook_sorted es AddressBook.empty b (by simp [AddressBook.empty, SortedKeys]) h
    exact hs.imp ne_of_lt
  · intro book a1 a2 s1 s2 t now lpd hsorted hbt haddr hfresh hne honly
    have hfree : ∀ e ∈ btInsert t (a2, s2) book.by_time, e.2.1 ≠ a1 := by
      intro e he
      rcases btInsert_mem_sorted t (a2, s2) book.by_time hsorted e he with h | h
      · rw [h]
        exact Ne.symm hne
      · intro hcontra
        exact h.2 (honly e h.1 hcontra)
    refine ⟨by simp [update, hfresh], btLookup_btInsert_self t (a2, s2) _,
      (aLookup_aInsert_ne a1 a2 (t, s2) hne book.by_addr).trans haddr, ?_, ?_, ?_⟩
    · intro m hm
      rcases List.mem_map.mp hm with ⟨e, he, rfl⟩
      exact hfree e (List.mem_reverse.mp he)
    · intro m hm
      rw [disconnected_peers_eq_filter_peers] at hm
      rcases List.mem_filter.mp hm with ⟨hm', -⟩
      rcases List.mem_map.mp hm' with ⟨e, he, rfl⟩
      exact hfree e (List.mem_reverse.mp he)
    · intro m hm
      obtain ⟨e, he, rfl⟩ := drainN_mem _ _ m hm
      exact hfree e he

/-- C10 witness: the replacement behavior at a concrete one-peer state, and
the reachable-state key-distinctness at a concrete event list. -/
theorem by_time_holds_one_peer_per_timestamp_witness :
    (([(10, (0, 1))] : ByTime).Pairwise fun x y => x.1 ≠ y.1) ∧
    (update ⟨[(0, (10, 1))], [(10, (0, 1))]⟩ ⟨1, 2, 10⟩ =
      some ⟨aInsert 1 (10, 2) [(0, (10, 1))], btInsert 10 (1, 2) [(10, (0, 1))]⟩ ∧
    btLookup 10 (btInsert 10 (1, 2) [(10, (0, 1))]) = some (1, 2) ∧
    aLookup 0 (aInsert 1 (10, 2) [(0, (10, 1))]) = some (10, 1) ∧
    (∀ m ∈ peers ⟨aInsert 1 (10, 2) [(0, (10, 1))],
        btInsert 10 (1, 2) [(10, (0, 1))]⟩, m.addr ≠ 0) ∧
    (∀ m ∈ disconnected_peers ⟨aInsert 1 (10, 2) [(0, (10, 1))],
        btInsert 10 (1, 2) [(10, (0, 1))]⟩ 20 5, m.addr ≠ 0) ∧
    (∀ m ∈ (drainAll ⟨aInsert 1 (10, 2) [(0, (10, 1))],
        btInsert 10 (1, 2) [(10, (0, 1))]⟩).1, m.addr ≠ 0)) :=
  ⟨by_time_holds_one_peer_per_timestamp.1 [⟨0, 1, 10⟩] ⟨[(0, (10, 1))], [(10, (0, 1))]⟩ rfl,
   by_time_holds_one_peer_per_timestamp.2 ⟨[(0, (10, 1))], [(10, (0, 1))]⟩ 0 1 1 2 10 20 5
     (by decide) rfl rfl rfl (by decide) (by decide)⟩

/-- C8 witness: an equal-timestamp update at a concrete state replaces the
stored services. -/
theorem update_equal_timestamp_overwrites_witness :
    update ⟨[(0, (10, 5))], [(10, (0, 5))]⟩ ⟨0, 7, 10⟩ =
      some ⟨aInsert 0 (10, 7) [(0, (10, 5))], btInsert 10 (0, 7) []⟩ ∧
    aLookup 0 (aInsert 0 (10, 7) [(0, (10, 5))]) = some (10, 7) ∧
    btLookup 10 (btInsert 10 (0, 7) []) = some (0, 7) :=
  update_equal_timestamp_overwrites ⟨[(0, (10, 5))], [(10, (0, 5))]⟩ 0 0 5 7 5 10 []
    rfl rfl

/-! ## Inventory encoding lemmas (C9) -/

theorem read_u32LE_encode (n : Nat) (hn : n < 2 ^ 32) (rest : List Byte) :
    read_u32LE (encodeU32LE n ++ rest) = .ok (n, rest) := by
  simp only [encodeU32LE, List.cons_append, List.nil_append, read_u32LE,
    decodeU32LE, Except.ok.injEq, Prod.mk.injEq, and_true]
  omega

theorem read_32_bytes_exact (h : Hash32) (rest : List Byte) :
    read_32_bytes (h.val ++ rest) = .ok (h, rest) := by
  obtain ⟨l, hl⟩ := h
  show read_32_bytes (l ++ rest) = .ok (⟨l, hl⟩, rest)
  have hlen : (32 : Nat) ≤ (l ++ rest).length := by
    rw [List.length_append, hl]
    omega
  rw [read_32_bytes, dif_pos hlen]
  simp only [Except.ok.injEq, Prod.mk.injEq]
  exact ⟨Subtype.ext (List.take_left' hl), List.drop_left' hl⟩

/-- C9: every `InventoryHash` round-trips through serialization (with any
trailing bytes preserved), and deserializing a record whose 4-byte
little-endian type code is outside {0, 1, 2, 3} fails with the
`ParseError("invalid inventory code")`. -/
theorem inventory_hash_roundtrip_and_invalid_code :
    (∀ (v : InventoryHash) (rest : List Byte),
      zcash_deserialize (zcash_serialize v ++ rest) = .ok (v, rest)) ∧
    (∀ (code : Nat) (bytes rest : List Byte), code < 2 ^ 32 →
      code ∉ ([0, 1, 2, 3] : List Nat) → bytes.length = 32 →
      zcash_deserialize (encodeU32LE code ++ (bytes ++ rest)) =
        .error (.parseError "invalid inventory code")) := by
  constructor
  · intro v rest
    cases v with
    | Error =>
      simp only [zcash_serialize, List.append_assoc, zcash_deserialize,
        read_u32LE_encode 0 (by norm_num),
        read_32_bytes_exact ⟨List.replicate 32 (0 : Byte), by simp⟩ rest]
      norm_num
    | Tx hash =>
      simp only [zcash_serialize, List.append_assoc, zcash_deserialize,
        read_u32LE_encode 1 (by norm_num), read_32_bytes_exact hash.digest rest]
      norm_num
    | Block hash =>
      simp only [zcash_serialize, List.append_assoc, zcash_deserialize,
        read_u32LE_encode 2 (by norm_num), read_32_bytes_exact hash.digest rest]
      norm_num
    | FilteredBlock hash =>
      simp only [zcash_serialize, List.append_assoc, zcash_deserialize,
        read_u32LE_encode 3 (by norm_num), read_32_bytes_exact hash.digest rest]
      norm_num
  · intro code bytes rest hlt hnotin hlen
    simp only [List.mem_cons, List.mem_singleton, not_or] at hnotin
    obtain ⟨h0, h1, h2, h3, -⟩ := hnotin
    simp only [zcash_deserialize, read_u32LE_encode code hlt,
      read_32_bytes_exact ⟨bytes, hlen⟩ rest, if_neg h0, if_neg h1, if_neg h2,
      if_neg h3]

/-- C9 witness: the round trip at a concrete transaction hash, and the parse
error at the concrete invalid code 7. -/
theorem inventory_hash_roundtrip_and_invalid_code_witness :
    zcash_deserialize
        (zcash_serialize (.Tx ⟨⟨List.replicate 32 (5 : Byte), by simp⟩⟩) ++ []) =
      .ok (.Tx ⟨⟨List.replicate 32 (5 : Byte), by simp⟩⟩, []) ∧
    zcash_deserialize (encodeU32LE 7 ++ (List.replicate 32 (0 : Byte) ++ [])) =
      .error (.parseError "invalid inventory code") :=
  ⟨inventory_hash_roundtrip_and_invalid_code.1
      (.Tx ⟨⟨List.replicate 32 (5 : Byte), by simp⟩⟩) [],
   inventory_hash_roundtrip_and_invalid_code.2 7 (List.replicate 32 (0 : Byte)) []
      (by norm_num) (by decide) (by simp)⟩

end Zebra
